import Mathlib

/-!
Verification of the DudelDu SHOUTcast streaming server (krotik/dudeldu).

The development shallowly embeds the parts of the Go source that the
specification's claims are about:

* the streaming engine of `requesthandler.go` (`prepareFrame`, `writeFrame`,
  the frame pump of `defaultServeRequest`, `writeStreamMetaData`,
  `decodeRequestHeader`);
* the authenticator of `auth.go` (`checkAuth` with its `Authorization: Basic`
  extraction and base64 decoding);
* the default playlist of `playlist/fileplaylist.go` (`FilePlaylist` with
  `Frame`, `nextFile`, `currentItem`, `Artist`, `Title`, `ContentType`,
  `Finished`, `Close`).

Go byte strings are modeled as `List Nat` (each element < 256 in any run of
the real program), Go `string` values that are inspected character-wise are
modeled as `List Char`, machine integers as `Nat` (the only subtraction the
engine performs, `MetaDataInterval - writtenBytes`, is guarded by
`writtenBytes ≤ MetaDataInterval` in every reachable state, so `Nat`
subtraction agrees with `uint64` arithmetic there).  The network connection
is modeled by the list of chunks written to it; the playlist seen by the
engine is modeled by the list of frames it returns, per the `Playlist`
interface contract of `playlist.go`.
-/

namespace DudelDu

/-- `MaxRequestSize` from `requesthandler.go`: maximum size for a request. -/
def MaxRequestSize : Nat := 1024

/-- `FrameSize` from `playlist.go`: suggested frame size. -/
def FrameSize : Nat := 3000

/-- ASCII bytes of a string literal (all literals used are 7-bit ASCII,
so `Char.toNat` equals the Go byte value). -/
def ascii (s : String) : List Nat := s.toList.map Char.toNat

/-- One chunk written to the client connection: either stream data bytes or
the bytes of one metadata packet. -/
inductive Chunk where
  | data : List Nat → Chunk
  | meta : List Nat → Chunk
deriving DecidableEq

/-- The bytes of a chunk as they appear on the wire. -/
def chunkBytes : Chunk → List Nat
  | Chunk.data bs => bs
  | Chunk.meta bs => bs

/-- The byte stream a client observes: concatenation of all written chunks. -/
def bodyBytes (cs : List Chunk) : List Nat := (cs.map chunkBytes).flatten

/-- One `pl.Frame()` call against the `Playlist` interface contract
(`playlist.go`, spec section 4.5).  The playlist is the list `fs` of frames
still to be returned, and the flag `pe` records the shape of its end:
`pe = true` means the final frame is delivered together with
`ErrPlaylistEnd` (as `FilePlaylist.Frame` does when the last item ends
mid-frame, i.e. whenever the total byte count is not an exact multiple of
`FrameSize`), `pe = false` means every frame is delivered error-free and a
separate `(nil, ErrPlaylistEnd)` call signals the end (the exact-multiple
case).  Returns the frame (`none` models a `nil` frame), whether this call
returned `ErrPlaylistEnd`, and the rest of the playlist. -/
def plFrame (pe : Bool) : List (List Nat) → Option (List Nat) × Bool × List (List Nat)
  | [] => (none, true, [])
  | [f] => (some f, pe, [])
  | f :: f2 :: r => (some f, false, f2 :: r)

/-- The offset-skip loop inside `prepareFrame` (`requesthandler.go`):
`for frameOffset > len(frame) && err == nil { frameOffset -= len(frame);
frame, err = pl.Frame() }`.  `frame` is the frame in hand and `e` whether
it arrived together with `ErrPlaylistEnd`; the loop stops as soon as the
offset fits the frame in hand or an error is in hand.  Returns the frame
in hand (if any), its error flag, the remaining playlist and the remaining
offset. -/
def skipLoop (pe : Bool) : List (List Nat) → List Nat → Bool → Nat →
    Option (List Nat) × Bool × List (List Nat) × Nat
  | [], frame, e, O =>
    if frame.length < O ∧ e = false then (none, true, [], O - frame.length)
    else (some frame, e, [], O)
  | [f2], frame, e, O =>
    if frame.length < O ∧ e = false then skipLoop pe [] f2 pe (O - frame.length)
    else (some frame, e, [f2], O)
  | f2 :: g :: r2, frame, e, O =>
    if frame.length < O ∧ e = false then skipLoop pe (g :: r2) f2 false (O - frame.length)
    else (some frame, e, f2 :: g :: r2, O)

/-- `prepareFrame` of `requesthandler.go`.  Both the offset block and the
slice `frame = frame[frameOffset:]` are guarded by `err == nil`: when the
frame in hand arrived together with `ErrPlaylistEnd`, the offset is not
consumed and the frame is passed on unsliced (the error is cleared
whenever the frame is not `nil`, so the engine still writes it).  Returns
the prepared frame (`none` models the `frame == nil` return), the
remaining playlist and the remaining offset. -/
def prepareFrame (pe : Bool) (fs : List (List Nat)) (O : Nat) :
    Option (List Nat) × List (List Nat) × Nat :=
  match plFrame pe fs with
  | (none, _, r0) => (none, r0, O)
  | (some frame, e0, r0) =>
    if 0 < O ∧ e0 = false then
      match skipLoop pe r0 frame e0 O with
      | (none, _, r1, O1) => (none, r1, O1)
      | (some f, e1, r1, O1) =>
        if e1 = false then
          if (f.drop O1).length = 0 then
            match plFrame pe r1 with
            | (none, _, r2) => (none, r2, 0)
            | (some f2, _, r2) => (some f2, r2, 0)
          else (some (f.drop O1), r1, 0)
        else (some f, r1, O1)
    else (some frame, r0, O)

/-- The emitting part of `writeFrame` (`requesthandler.go`), given the
prepared frame: if metadata is enabled and `writtenBytes + len(frame)`
reaches `MetaDataInterval` (`I`), write the first `I - W` bytes, one
metadata packet `pkt`, then the rest of the frame, and subtract `I` from
the counter; otherwise write the whole frame.  The socket is modeled as
always accepting the write (the zero-write abort ends a session early and
is not part of the delivered-body claims). -/
def writeFrame (frame : List Nat) (W : Nat) (metaDataSupport : Bool)
    (pkt : List Nat) (I : Nat) : List Chunk × Nat :=
  if metaDataSupport = true ∧ I ≤ W + frame.length then
    let pre := I - W
    let c1 : List Chunk := if 0 < pre then [Chunk.data (frame.take pre)] else []
    let frame1 := if 0 < pre then frame.drop pre else frame
    let W1 := if 0 < pre then W + pre else W
    (c1 ++ [Chunk.meta pkt, Chunk.data frame1], W1 + frame1.length - I)
  else
    ([Chunk.data frame], W + frame.length)

/-- The inner frame-pump loop of `defaultServeRequest`
(`for !pl.Finished() { ... writeFrame ... }`), with `writeFrame`'s call to
`prepareFrame` hoisted to the loop so that the end of the playlist (a `nil`
frame, which sets the finished flag and ends the loop) drives the
recursion.  `fuel` bounds the number of iterations; every productive
iteration consumes at least one frame of `fs`, so `fs.length` fuel
suffices (see `framePump`). -/
def pumpGo (pe metaDataSupport : Bool) (pkt : List Nat) (I : Nat) :
    Nat → List (List Nat) → Nat → Nat → List Chunk
  | 0, _, _, _ => []
  | fuel + 1, fs, O, W =>
    match prepareFrame pe fs O with
    | (none, _, _) => []
    | (some frame, r, O1) =>
      (writeFrame frame W metaDataSupport pkt I).1 ++
        pumpGo pe metaDataSupport pkt I fuel r O1 (writeFrame frame W metaDataSupport pkt I).2

/-- The frame pump of `defaultServeRequest` for one pass over the playlist
(looping disabled): pump frames starting at byte offset `O` with metadata
counter `W` until the playlist is finished; `pe` is the playlist-end shape
as in `plFrame`. -/
def framePump (pe metaDataSupport : Bool) (pkt : List Nat) (I : Nat)
    (fs : List (List Nat)) (O W : Nat) : List Chunk :=
  pumpGo pe metaDataSupport pkt I fs.length fs O W

/-- Fuel-indexed worker for `specInterleave`. -/
def specInterleaveGo (I : Nat) (pkt : List Nat) : Nat → List Nat → List Nat
  | 0, bs => bs
  | fuel + 1, bs =>
    if 0 < I ∧ I ≤ bs.length then
      bs.take I ++ pkt ++ specInterleaveGo I pkt fuel (bs.drop I)
    else bs

/-- Reference stream, written from the specification's words (not from the
source): the byte stream `bs` with the metadata packet `pkt` inserted after
every complete `I` stream bytes.  Used to state that the engine's output
refines the spec's "one metadata packet every MetaDataInterval
stream-bytes". -/
def specInterleave (I : Nat) (pkt bs : List Nat) : List Nat :=
  specInterleaveGo I pkt bs.length bs

/-- Generalization of `specInterleave` to a nonzero starting counter `W`:
the first packet is due after `I - W` further bytes. -/
def specInterleaveW (I : Nat) (pkt : List Nat) (W : Nat) (bs : List Nat) : List Nat :=
  if 0 < I ∧ I ≤ W + bs.length then
    bs.take (I - W) ++ pkt ++ specInterleave I pkt (bs.drop (I - W))
  else bs

/-- The stream title built by `writeStreamMetaData`
(`fmt.Sprintf("StreamTitle='%v - %v';", ...)`), at the byte level; byte 39
is the apostrophe, byte 59 the semicolon. -/
def streamTitleBytes (title artist : List Nat) : List Nat :=
  ascii "StreamTitle=" ++ [39] ++ title ++ ascii " - " ++ artist ++ [39, 59]

/-- The truncation step of `writeStreamMetaData`: if the stream title is
longer than `MaxMetaDataSize`, keep the first `MaxMetaDataSize - 2` bytes
and re-append the two bytes of `';`. -/
def truncatedTitle (st : List Nat) (maxMetaDataSize : Nat) : List Nat :=
  if maxMetaDataSize < st.length then st.take (maxMetaDataSize - 2) ++ [39, 59]
  else st

/-- `writeStreamMetaData` of `requesthandler.go`: the metadata packet bytes.
`byte(math.Ceil(float64(len(streamTitle)) / 16.0))` is exact ceiling
division followed by truncation to a byte (`% 256`); the packet is the
block-count byte followed by a `16 * k` byte buffer holding the title
(`copy` transfers `min` of the lengths) padded with zero bytes. -/
def writeStreamMetaData (title artist : List Nat) (maxMetaDataSize : Nat) : List Nat :=
  let st := truncatedTitle (streamTitleBytes title artist) maxMetaDataSize
  let k := ((st.length + 15) / 16) % 256
  k :: (st.take (16 * k) ++ List.replicate (16 * k - st.length) 0)

/-- `strings.Contains(string(rbuf), "\r\n\r\n")` at the byte level. -/
def containsCRLFCRLF : List Nat → Bool
  | 13 :: 10 :: 13 :: 10 :: _ => true
  | _ :: rest => containsCRLFCRLF rest
  | [] => false

/-- The message of the `RequestTooLong` error
(`fmt.Errorf("Illegal request: Request is too long")`). -/
def tooLongMsg : String := "Illegal request: Request is too long"

/-- The read loop of `decodeRequestHeader` (`requesthandler.go`).  The
connection is modeled by `reads`, the list of byte chunks successive
`c.Read(rbuf)` calls return (each at most 512 bytes, the size of `rbuf`);
an exhausted list models the `(0, io.EOF)` read that ends the loop.
`rbuf` models the reused 512-byte read buffer: a read overwrites its first
`len(chunk)` bytes and the terminator scan `strings.Contains(string(rbuf),
"\r\n\r\n")` looks at the whole buffer including stale bytes of earlier
reads.  The length check `buf.Len() > MaxRequestSize` runs before the
current chunk is appended. -/
def drhGo : List (List Nat) → List Nat → List Nat → Except String (List Nat)
  | [], _, buf => Except.ok buf
  | c :: rest, rbuf, buf =>
    if c.length = 0 then Except.ok buf
    else if MaxRequestSize < buf.length then Except.error tooLongMsg
    else
      if containsCRLFCRLF (c ++ rbuf.drop c.length) then Except.ok (buf ++ c)
      else drhGo rest (c ++ rbuf.drop c.length) (buf ++ c)

/-- `decodeRequestHeader` of `requesthandler.go`: accumulate reads until the
terminator is seen in the read buffer or the request is too long. -/
def decodeRequestHeader (reads : List (List Nat)) : Except String (List Nat) :=
  drhGo reads (List.replicate 512 0) []

/-- Split a header text on newline characters; models the line structure
that the `(?m)` mode of Go's regexp anchors `^`/`$` to. -/
def splitLines : List Char → List (List Char)
  | [] => [[]]
  | '\n' :: rest => [] :: splitLines rest
  | c :: rest =>
    match splitLines rest with
    | [] => [[c]]
    | l :: ls => (c :: l) :: ls

/-- Whitespace in the sense of the regexp class `\s` = `[\t\n\f\r ]`. -/
def isWsp (c : Char) : Bool :=
  c = ' ' ∨ c = '\t' ∨ c = '\n' ∨ c = '\x0c' ∨ c = '\r'

/-- The literal part of `requestAuthPattern`
(`(?im)^Authorization: Basic (\S+).*$`), lower-cased. -/
def authLineLit : List Char := "authorization: basic ".toList

/-- Match one line against `requestAuthPattern`: the case-insensitive
literal must start the line, and the group `(\S+)` captures the following
maximal nonempty run of non-whitespace characters. -/
def lineToken (line : List Char) : Option (List Char) :=
  if (line.take authLineLit.length).map Char.toLower = authLineLit then
    match (line.drop authLineLit.length).takeWhile (fun c => !(isWsp c)) with
    | [] => none
    | tok => some tok
  else none

/-- `requestAuthPattern.FindStringSubmatch`: the first line matching the
pattern yields the captured base64 token. -/
def findAuthToken (bufStr : List Char) : Option (List Char) :=
  (splitLines bufStr).findSome? lineToken

/-- Value of a character in the standard base64 alphabet. -/
def b64Val (c : Char) : Option Nat :=
  if 'A' ≤ c ∧ c ≤ 'Z' then some (c.toNat - 65)
  else if 'a' ≤ c ∧ c ≤ 'z' then some (c.toNat - 97 + 26)
  else if '0' ≤ c ∧ c ≤ '9' then some (c.toNat - 48 + 52)
  else if c = '+' then some 62
  else if c = '/' then some 63
  else none

/-- Decode base64 four characters at a time with standard padding:
`=` padding may only occur at the end (one or two characters), anything
else that is not in the alphabet is an error, trailing bits are discarded
(Go's non-strict `StdEncoding`). -/
def decodeBlocks : List Char → Option (List Nat)
  | [] => some []
  | a :: b :: c :: d :: rest =>
    match b64Val a, b64Val b with
    | some va, some vb =>
      if c = '=' then
        if d = '=' ∧ rest = [] then some [va * 4 + vb / 16] else none
      else
        match b64Val c with
        | some vc =>
          if d = '=' then
            if rest = [] then some [va * 4 + vb / 16, (vb % 16) * 16 + vc / 4]
            else none
          else
            match b64Val d with
            | some vd =>
              (decodeBlocks rest).map
                (fun bs => (va * 4 + vb / 16) :: ((vb % 16) * 16 + vc / 4) ::
                  ((vc % 4) * 64 + vd) :: bs)
            | none => none
        | none => none
    | _, _ => none
  | _ => none

/-- `base64.StdEncoding.DecodeString`: carriage returns and newlines are
ignored, the rest must be full four-character blocks. -/
def base64Decode (s : List Char) : Option (List Nat) :=
  decodeBlocks (s.filter (fun c => !(c = '\r' ∨ c = '\n')))

/-- Modelled from the spec: the `datautil.MapCache` used for `authPeers`
lives in the external `devt.de/krotik/common` library and is not part of
this repository.  Per the spec it is a mapping from client IP to the last
successfully authenticated request header text whose entries expire
`peerNoAuthTimeout` (10) seconds after insertion, expiry being observed on
access.  Time is an abstract `Nat` clock passed to `get`/`put`. -/
structure MapCache where
  entries : List (List Char × List Char × Nat)
  maxAge : Nat
deriving DecidableEq

/-- Modelled from the spec: `MapCache.Get` returns the stored value for a
key whose entry is still live (inserted at most `maxAge` seconds ago). -/
def MapCache.get (mc : MapCache) (k : List Char) (now : Nat) : Option (List Char) :=
  (mc.entries.find? (fun e => e.1 == k && decide (now - e.2.2 ≤ mc.maxAge))).map
    (fun e => e.2.1)

/-- Modelled from the spec: `MapCache.Put` stores a value for a key with a
fresh insertion time, replacing any previous entry for that key. -/
def MapCache.put (mc : MapCache) (k v : List Char) (now : Nat) : MapCache :=
  ⟨(k, v, now) :: mc.entries.filter (fun e => !(e.1 == k)), mc.maxAge⟩

/-- The result triple of `checkAuth`: the decoded credential (`auth`, as
bytes), the possibly replaced request header text, and the accept flag. -/
structure AuthResult where
  auth : List Nat
  buf : List Char
  ok : Bool
deriving DecidableEq

/-- `checkAuth` of `auth.go`.  `cfg` is the configured credential
`drh.auth` as bytes (empty means no credential is configured), `cache` the
`authPeers` map, `bufStr` the trimmed request header text and
`clientString` the client host.  Returns the `(auth, bufStr, ok)` triple
and the possibly updated peer cache. -/
def checkAuth (cfg : List Nat) (cache : MapCache) (bufStr clientString : List Char)
    (now : Nat) : AuthResult × MapCache :=
  match findAuthToken bufStr with
  | some tok =>
    match base64Decode tok with
    | none => (⟨[], bufStr, false⟩, cache)
    | some b =>
      if b ≠ cfg ∧ cfg ≠ [] then (⟨b, bufStr, false⟩, cache)
      else (⟨b, bufStr, true⟩, cache.put clientString bufStr now)
  | none =>
    if cfg ≠ [] ∧ (cache.get clientString now) = none then (⟨[], bufStr, false⟩, cache)
    else if bufStr = [] ∧ (cache.get clientString now).isSome then
      match cache.get clientString now with
      | some s =>
        match findAuthToken s with
        | some t2 =>
          match base64Decode t2 with
          | some b => (⟨b, s, true⟩, cache)
          | none => (⟨[], s, true⟩, cache)
        | none => (⟨[], s, true⟩, cache)
      | none => (⟨[], bufStr, true⟩, cache)
    else (⟨[], bufStr, true⟩, cache)

/-- The 401 response of `writeUnauthorized` (`requesthandler.go`). -/
def writeUnauthorized : List Char :=
  "HTTP/1.1 401 Authorization Required\r\nWWW-Authenticate: Basic realm=\"DudelDu Streaming Server\"\r\n\r\n".toList

/-- The authentication step of `HandleRequest`: when `checkAuth` rejects,
the server writes the 401 response and returns; otherwise nothing is
written by this step. -/
def authResponse (cfg : List Nat) (cache : MapCache) (bufStr clientString : List Char)
    (now : Nat) : Option (List Char) :=
  if (checkAuth cfg cache bufStr clientString now).1.ok then none
  else some writeUnauthorized

/-- Helper predicate: the request either carries no `Authorization: Basic`
token, or carries one that base64-decodes successfully. -/
def authDecodeOk (bufStr : List Char) : Bool :=
  match findAuthToken bufStr with
  | some tok => (base64Decode tok).isSome
  | none => true

/-- Playlist errors: `dudeldu.ErrPlaylistEnd` or a per-item open error. -/
inductive PErr where
  | plEnd : PErr
  | openErr : PErr
deriving DecidableEq

/-- One playlist item (`map[string]string` with keys `artist`, `title`,
`path` in `fileplaylist.go`). -/
structure PLItem where
  artist : List Char
  title : List Char
  path : List Char
deriving DecidableEq, Inhabited

/-- The `FilePlaylist` state (`fileplaylist.go`): current item index, the
item list, the currently open file (modeled by its remaining unread bytes;
`none` is a `nil` file handle) and the finished flag.  The frame pool is
not modeled: it only recycles buffers and does not affect any observable
value. -/
structure FilePlaylist where
  current : Nat
  data : List PLItem
  file : Option (List Nat)
  finished : Bool
deriving DecidableEq

/-- `currentItem` of `fileplaylist.go`: the item at the current index, or
the last item once the index has moved past the end.  (On an empty item
list the Go code would panic; the model returns the `default` item, and
every theorem about it assumes a nonempty list.) -/
def currentItem (fp : FilePlaylist) : PLItem :=
  if fp.current < fp.data.length then fp.data.getD fp.current default
  else fp.data.getD (fp.data.length - 1) default

/-- `filepath.Ext`: the suffix of the path starting at the last dot of the
last slash-separated element, or empty if that element has no dot. -/
def filepathExt (p : List Char) : List Char :=
  match (p.reverse.takeWhile (fun c => !(c = '/'))).takeWhile (fun c => !(c = '.')) with
  | revTail =>
    if revTail.length = (p.reverse.takeWhile (fun c => !(c = '/'))).length then []
    else '.' :: revTail.reverse

/-- `FileExtContentTypes` of `fileplaylist.go`. -/
def fileExtContentTypes : List (List Char × List Char) :=
  [(".mp3".toList, "audio/mpeg".toList),
   (".flac".toList, "audio/flac".toList),
   (".aac".toList, "audio/x-aac".toList),
   (".mp4a".toList, "audio/mp4".toList),
   (".mp4".toList, "video/mp4".toList),
   (".nsv".toList, "video/nsv".toList),
   (".ogg".toList, "audio/ogg".toList),
   (".spx".toList, "audio/ogg".toList),
   (".opus".toList, "audio/ogg".toList),
   (".oga".toList, "audio/ogg".toList),
   (".ogv".toList, "video/ogg".toList),
   (".weba".toList, "audio/webm".toList),
   (".webm".toList, "video/webm".toList),
   (".axa".toList, "audio/annodex".toList),
   (".axv".toList, "video/annodex".toList)]

/-- The content type `ContentType` derives from an item path: look the
file extension up in `FileExtContentTypes`, defaulting to `"audio"`. -/
def contentTypeForPath (p : List Char) : List Char :=
  match fileExtContentTypes.lookup (filepathExt p) with
  | some ctype => ctype
  | none => "audio".toList

/-- `Artist` of `fileplaylist.go`. -/
def FilePlaylist.Artist (fp : FilePlaylist) : List Char := (currentItem fp).artist

/-- `Title` of `fileplaylist.go`. -/
def FilePlaylist.Title (fp : FilePlaylist) : List Char := (currentItem fp).title

/-- `ContentType` of `fileplaylist.go`. -/
def FilePlaylist.ContentType (fp : FilePlaylist) : List Char :=
  contentTypeForPath (currentItem fp).path

/-- `Finished` of `fileplaylist.go`. -/
def FilePlaylist.Finished (fp : FilePlaylist) : Bool := fp.finished

/-- `Close` of `fileplaylist.go`: close any open file, reset the current
pointer and the finished flag (always returns a `nil` error). -/
def FilePlaylist.Close (fp : FilePlaylist) : FilePlaylist :=
  { fp with file := none, current := 0, finished := false }

/-- `nextFile` of `fileplaylist.go`.  `env` maps an item path to the bytes
of the file it names (`none` models an `os.Open` error).  Except on the
first call (no open file yet), advance the current pointer and close the
file, signalling `ErrPlaylistEnd` past the last item; then open the new
current item, advancing once more if the open fails. -/
def nextFile (env : List Char → Option (List Nat)) (fp : FilePlaylist) :
    Option PErr × FilePlaylist :=
  match (if fp.file.isSome then
           (if fp.data.length ≤ fp.current + 1 then some PErr.plEnd else none,
            { fp with current := fp.current + 1, file := none })
         else (none, fp)) with
  | (some e, fp1) => (some e, fp1)
  | (none, fp1) =>
    match env (currentItem fp1).path with
    | some bytes => (none, { fp1 with file := some bytes })
    | none => (some PErr.openErr, { fp1 with current := fp1.current + 1 })

/-- The read loop of `Frame` (`fileplaylist.go`): keep reading from the
open file into the frame until `FrameSize` bytes are collected, moving to
the next file whenever a read returns fewer bytes than requested; a
`nextFile` error ends the loop.  A file read returns
`min(frame space, remaining bytes)` bytes (at the end of a file the Go
read returns `(0, io.EOF)`, and the error is immediately overwritten by
the `nextFile` call since the frame is still short).  `fuel` bounds the
iterations; every iteration that recurses advanced `current` by one, so
`fp.data.length + 2` suffices. -/
def readLoop (env : List Char → Option (List Nat)) :
    Nat → FilePlaylist → List Nat → List Nat × Option PErr × FilePlaylist
  | 0, fp, acc => (acc, none, fp)
  | fuel + 1, fp, acc =>
    match fp.file with
    | some bytes =>
      if acc.length + (min (FrameSize - acc.length) bytes.length) < FrameSize then
        match nextFile env { fp with file := some (bytes.drop (min (FrameSize - acc.length) bytes.length)) } with
        | (none, fp2) =>
          readLoop env fuel fp2 (acc ++ bytes.take (min (FrameSize - acc.length) bytes.length))
        | (some e, fp2) =>
          (acc ++ bytes.take (min (FrameSize - acc.length) bytes.length), some e, fp2)
      else (acc ++ bytes.take (min (FrameSize - acc.length) bytes.length), none,
            { fp with file := some (bytes.drop (min (FrameSize - acc.length) bytes.length)) })
    | none => (acc, none, fp)

/-- `Frame` of `fileplaylist.go`: returns `(nil, ErrPlaylistEnd)` once the
playlist is finished; otherwise loads the first file if none is open, runs
the read loop, returns `nil` (converting any error to `ErrPlaylistEnd`)
if no bytes were collected, and sets the finished flag whenever the
returned error is `ErrPlaylistEnd`.  The `frame = frame[:n]` resize is
implicit: the model's frame holds exactly the bytes read. -/
def FilePlaylist.Frame (env : List Char → Option (List Nat)) (fp : FilePlaylist) :
    (Option (List Nat) × Option PErr) × FilePlaylist :=
  if fp.finished then ((none, some PErr.plEnd), fp)
  else
    match (if fp.file.isNone then nextFile env fp else (none, fp)) with
    | (some e, fp1) =>
      ((none, some e), if e = PErr.plEnd then { fp1 with finished := true } else fp1)
    | (none, fp1) =>
      match readLoop env (fp1.data.length + 2) fp1 [] with
      | (bytes, err1, fp2) =>
        if bytes.length = 0 then
          match err1 with
          | some _ => ((none, some PErr.plEnd), { fp2 with finished := true })
          | none => ((none, none), fp2)
        else
          ((some bytes, err1),
           if err1 = some PErr.plEnd then { fp2 with finished := true } else fp2)

theorem bodyBytes_nil : bodyBytes [] = [] := rfl

theorem bodyBytes_append (a b : List Chunk) :
    bodyBytes (a ++ b) = bodyBytes a ++ bodyBytes b := by
  simp [bodyBytes]

theorem bodyBytes_cons (c : Chunk) (cs : List Chunk) :
    bodyBytes (c :: cs) = chunkBytes c ++ bodyBytes cs := by
  simp [bodyBytes]

theorem plFrame_single (pe : Bool) (f : List Nat) : plFrame pe [f] = (some f, pe, []) := rfl

theorem plFrame_false_cons (f : List Nat) (r : List (List Nat)) :
    plFrame false (f :: r) = (some f, false, r) := by
  cases r <;> rfl

theorem plFrame_cons_of_ne (pe : Bool) (f : List Nat) (r : List (List Nat)) (h : r ≠ []) :
    plFrame pe (f :: r) = (some f, false, r) := by
  match r with
  | g :: gs => rfl

theorem plFrame_cons_shape (pe : Bool) (f : List Nat) (r : List (List Nat)) :
    ∃ e, plFrame pe (f :: r) = (some f, e, r) := by
  cases r <;> exact ⟨_, rfl⟩

theorem skipLoop_false_none :
    ∀ (fs : List (List Nat)) (frame : List Nat) (O : Nat) (e1 : Bool)
      (r1 : List (List Nat)) (O1 : Nat),
      skipLoop false fs frame false O = (none, e1, r1, O1) →
      frame.length + fs.flatten.length < O := by
  intro fs
  induction fs with
  | nil =>
    intro frame O e1 r1 O1 h
    simp only [skipLoop] at h
    split at h
    next hc => simpa using hc.1
    next => simp at h
  | cons g gs ih =>
    intro frame O e1 r1 O1 h
    rcases gs with _ | ⟨g2, r2⟩
    · simp only [skipLoop] at h
      split at h
      next hc1 =>
        have hlt1 := hc1.1
        split at h
        next hc2 =>
          have hlt2 := hc2.1
          simp only [List.flatten_cons, List.flatten_nil, List.length_append,
            List.length_nil]
          omega
        next => simp at h
      next => simp at h
    · simp only [skipLoop] at h
      split at h
      next hc =>
        have hlt := hc.1
        have hrec := ih g (O - frame.length) e1 r1 O1 h
        simp only [List.flatten_cons, List.length_append] at hrec ⊢
        omega
      next => simp at h

theorem skipLoop_false_some :
    ∀ (fs : List (List Nat)) (frame : List Nat) (O : Nat) (f : List Nat) (e1 : Bool)
      (r1 : List (List Nat)) (O1 : Nat),
      skipLoop false fs frame false O = (some f, e1, r1, O1) →
      e1 = false ∧ O1 ≤ f.length ∧
        (frame ++ fs.flatten).drop O = f.drop O1 ++ r1.flatten ∧ r1.length ≤ fs.length := by
  intro fs
  induction fs with
  | nil =>
    intro frame O f e1 r1 O1 h
    simp only [skipLoop] at h
    split at h
    · simp at h
    next hge =>
      have hle : ¬frame.length < O := fun hlt => hge ⟨hlt, trivial⟩
      simp only [Prod.mk.injEq, Option.some.injEq] at h
      obtain ⟨rfl, rfl, rfl, rfl⟩ := h
      refine ⟨rfl, by omega, ?_, le_refl _⟩
      simp

  | cons g gs ih =>
    intro frame O f e1 r1 O1 h
    rcases gs with _ | ⟨g2, r2⟩
    · simp only [skipLoop] at h
      split at h
      next hc1 =>
        have hlt1 := hc1.1
        split at h
        next hc2 => simp at h
        next hge2 =>
          have hle2 : ¬g.length < O - frame.length := fun hlt => hge2 ⟨hlt, trivial⟩
          simp only [Prod.mk.injEq, Option.some.injEq] at h
          obtain ⟨rfl, rfl, rfl, rfl⟩ := h
          refine ⟨rfl, by omega, ?_, by simp⟩
          rw [List.flatten_cons, List.flatten_nil, List.append_nil,
            List.drop_append_eq_append_drop, List.drop_eq_nil_of_le (le_of_lt hlt1)]
          simp
      next hge =>
        have hle : ¬frame.length < O := fun hlt => hge ⟨hlt, trivial⟩
        simp only [Prod.mk.injEq, Option.some.injEq] at h
        obtain ⟨rfl, rfl, rfl, rfl⟩ := h
        refine ⟨rfl, by omega, ?_, le_refl _⟩
        rw [List.drop_append_eq_append_drop]
        have h0 : O - frame.length = 0 := by omega
        simp [h0]
    · simp only [skipLoop] at h
      split at h
      next hc =>
        have hlt := hc.1
        obtain ⟨h0, h1, h2, h3⟩ := ih g (O - frame.length) f e1 r1 O1 h
        refine ⟨h0, h1, ?_, ?_⟩
        · rw [List.flatten_cons, List.drop_append_eq_append_drop,
            List.drop_eq_nil_of_le (le_of_lt hlt)]
          simpa using h2
        · simp only [List.length_cons] at h3 ⊢
          omega
      next hge =>
        have hle : ¬frame.length < O := fun hlt => hge ⟨hlt, trivial⟩
        simp only [Prod.mk.injEq, Option.some.injEq] at h
        obtain ⟨rfl, rfl, rfl, rfl⟩ := h
        refine ⟨rfl, by omega, ?_, le_refl _⟩
        rw [List.drop_append_eq_append_drop]
        have h0 : O - frame.length = 0 := by omega
        simp [h0]

theorem skipLoop_true_clean :
    ∀ (fs : List (List Nat)) (frame : List Nat) (O : Nat),
      O ≤ frame.length + fs.dropLast.flatten.length →
      ∃ f r1 O1, skipLoop true fs frame false O = (some f, false, r1, O1) ∧
        O1 ≤ f.length ∧ (frame ++ fs.flatten).drop O = f.drop O1 ++ r1.flatten ∧
        r1.length ≤ fs.length := by
  intro fs
  induction fs with
  | nil =>
    intro frame O hO
    simp only [List.dropLast_nil, List.flatten_nil, List.length_nil, Nat.add_zero] at hO
    refine ⟨frame, [], O, ?_, by omega, by simp, le_refl _⟩
    simp only [skipLoop]
    rw [if_neg (fun hc => absurd hc.1 (by omega))]
  | cons g gs ih =>
    intro frame O hO
    by_cases hlt : frame.length < O
    · rcases gs with _ | ⟨g2, r2⟩
      · exfalso
        simp only [List.dropLast_single, List.flatten_nil, List.length_nil,
          Nat.add_zero] at hO
        omega
      · have hO2 : O - frame.length ≤ g.length + (g2 :: r2).dropLast.flatten.length := by
          have hdl : (g :: g2 :: r2).dropLast = g :: (g2 :: r2).dropLast := by
            simp [List.dropLast]
          rw [hdl] at hO
          simp only [List.flatten_cons, List.length_append] at hO
          omega
        obtain ⟨f, r1, O1, heq, hle, hdrop, hlen⟩ := ih g (O - frame.length) hO2
        refine ⟨f, r1, O1, ?_, hle, ?_, by simpa using Nat.le_succ_of_le hlen⟩
        · simp only [skipLoop]
          rw [if_pos ⟨hlt, trivial⟩]
          exact heq
        · rw [List.flatten_cons, List.drop_append_eq_append_drop,
            List.drop_eq_nil_of_le (le_of_lt hlt)]
          simpa using hdrop
    · refine ⟨frame, g :: gs, O, ?_, by omega, ?_, le_refl _⟩
      · rcases gs with _ | ⟨g2, r2⟩
        all_goals
          simp only [skipLoop]
          rw [if_neg (fun hc => hlt hc.1)]
      · rw [List.drop_append_eq_append_drop]
        have h0 : O - frame.length = 0 := by omega
        simp [h0]

theorem skipLoop_true_overrun :
    ∀ (fs : List (List Nat)) (frame : List Nat) (O : Nat) (hne : fs ≠ []),
      frame.length + fs.dropLast.flatten.length < O →
      ∃ O1, skipLoop true fs frame false O = (some (fs.getLast hne), true, [], O1) := by
  intro fs
  induction fs with
  | nil => intro frame O hne _; exact absurd rfl hne
  | cons g gs ih =>
    intro frame O hne hO
    have hlt : frame.length < O := by omega
    rcases gs with _ | ⟨g2, r2⟩
    · refine ⟨O - frame.length, ?_⟩
      simp only [skipLoop]
      rw [if_pos ⟨hlt, trivial⟩]
      rw [if_neg (fun hc => by simp at hc)]
      simp [List.getLast]
    · have hgs : (g2 :: r2 : List (List Nat)) ≠ [] := by simp
      have hO2 : g.length + (g2 :: r2).dropLast.flatten.length < O - frame.length := by
        have hdl : (g :: g2 :: r2).dropLast = g :: (g2 :: r2).dropLast := by
          simp [List.dropLast]
        rw [hdl] at hO
        simp only [List.flatten_cons, List.length_append] at hO
        omega
      obtain ⟨O1, heq⟩ := ih g (O - frame.length) hgs hO2
      refine ⟨O1, ?_⟩
      simp only [skipLoop]
      rw [if_pos ⟨hlt, trivial⟩]
      have hlast : (g :: g2 :: r2).getLast hne = (g2 :: r2).getLast hgs :=
        List.getLast_cons hgs
      rw [hlast]
      exact heq

theorem prepareFrame_nil (pe : Bool) (O : Nat) : prepareFrame pe [] O = (none, [], O) := rfl

theorem prepareFrame_zero (pe : Bool) (f : List Nat) (r : List (List Nat)) :
    prepareFrame pe (f :: r) 0 = (some f, r, 0) := by
  cases r <;> simp [prepareFrame, plFrame]

theorem prepareFrame_false_none (fs : List (List Nat)) (O : Nat)
    (r1 : List (List Nat)) (O1 : Nat)
    (h : prepareFrame false fs O = (none, r1, O1)) : fs.flatten.drop O = [] := by
  match fs with
  | [] => simp
  | frame :: r =>
    simp only [prepareFrame, plFrame_false_cons] at h
    split at h
    next hO =>
      rcases hsl : skipLoop false r frame false O with ⟨o0, e0, r0, O0⟩
      rw [hsl] at h
      match o0, h with
      | none, h =>
        have hlt := skipLoop_false_none r frame O e0 r0 O0 hsl
        refine List.drop_eq_nil_of_le ?_
        simp only [List.flatten_cons, List.length_append]
        omega
      | some f0, h =>
        obtain ⟨he0, hle, hdrop, hlen⟩ := skipLoop_false_some r frame O f0 e0 r0 O0 hsl
        subst he0
        have h2 : (if (f0.drop O0).length = 0 then
            match plFrame false r0 with
            | (none, _, r2) => (none, r2, 0)
            | (some f2, _, r2) => (some f2, r2, 0)
          else (some (f0.drop O0), r0, 0)) = ((none : Option (List Nat)), r1, O1) := h
        split at h2
        next hnil =>
          match r0, h2 with
          | [], h2 =>
            rw [List.flatten_cons, hdrop, List.eq_nil_of_length_eq_zero hnil]
            simp
          | f2 :: r2, h2 => simp [plFrame_false_cons] at h2
        next hnonnil => simp at h2
    next hO => simp at h

theorem prepareFrame_false_some (fs : List (List Nat)) (O : Nat) (f : List Nat)
    (r : List (List Nat)) (O1 : Nat)
    (h : prepareFrame false fs O = (some f, r, O1)) :
    O1 = 0 ∧ fs.flatten.drop O = f ++ r.flatten ∧ r.length < fs.length := by
  match fs with
  | [] => simp [prepareFrame_nil] at h
  | frame :: rest =>
    simp only [prepareFrame, plFrame_false_cons] at h
    split at h
    next hO =>
      rcases hsl : skipLoop false rest frame false O with ⟨o0, e0, r0, O0⟩
      rw [hsl] at h
      match o0, h with
      | none, h =>
        have h2 : ((none : Option (List Nat)), r0, O0) =
            ((some f : Option (List Nat)), r, O1) := h
        simp at h2
      | some f0, h =>
        obtain ⟨he0, hle, hdrop, hlen⟩ := skipLoop_false_some rest frame O f0 e0 r0 O0 hsl
        subst he0
        have h2 : (if (f0.drop O0).length = 0 then
            match plFrame false r0 with
            | (none, _, r2) => (none, r2, 0)
            | (some f2, _, r2) => (some f2, r2, 0)
          else (some (f0.drop O0), r0, 0)) = ((some f : Option (List Nat)), r, O1) := h
        split at h2
        next hnil =>
          match r0, h2 with
          | [], h2 =>
            have h3 : ((none : Option (List Nat)), ([] : List (List Nat)), (0 : Nat)) =
                ((some f : Option (List Nat)), r, O1) := h2
            simp at h3
          | f2 :: r2, h2 =>
            obtain ⟨hf, hr, hOx⟩ : some f2 = some f ∧ r2 = r ∧ 0 = O1 := by
              simpa [plFrame_false_cons, Prod.ext_iff] using h2
            obtain rfl : f2 = f := by simpa using hf
            subst hr
            refine ⟨hOx.symm, ?_, ?_⟩
            · rw [List.flatten_cons, hdrop, List.eq_nil_of_length_eq_zero hnil]
              simp
            · simp only [List.length_cons] at hlen ⊢
              omega
        next hnonnil =>
          obtain ⟨hf, hr, hOx⟩ : some (f0.drop O0) = some f ∧ r0 = r ∧ 0 = O1 := by
            simpa [Prod.ext_iff] using h2
          obtain rfl : f0.drop O0 = f := by simpa using hf
          subst hr
          refine ⟨hOx.symm, ?_, ?_⟩
          · rw [List.flatten_cons, hdrop]
          · simp only [List.length_cons]
            omega
    next hO =>
      obtain ⟨hf, hr, hOx⟩ : some frame = some f ∧ rest = r ∧ O = O1 := by
        simpa [Prod.ext_iff] using h
      obtain rfl : frame = f := by simpa using hf
      subst hr
      have hO0 : O = 0 := by
        by_contra hcon
        exact hO ⟨Nat.pos_of_ne_zero hcon, trivial⟩
      subst hO0
      refine ⟨hOx.symm, by simp, by simp⟩

theorem prepareFrame_true_bounded (fs : List (List Nat)) (O : Nat)
    (hO : O ≤ fs.dropLast.flatten.length) :
    (∃ r1 O1, prepareFrame true fs O = (none, r1, O1) ∧ fs.flatten.drop O = []) ∨
    (∃ f r, prepareFrame true fs O = (some f, r, 0) ∧
      fs.flatten.drop O = f ++ r.flatten ∧ r.length < fs.length) := by
  match fs with
  | [] => exact Or.inl ⟨[], O, rfl, by simp⟩
  | frame :: rest =>
    by_cases hOpos : 0 < O
    · match rest with
      | [] =>
        exfalso
        simp only [List.dropLast_single, List.flatten_nil, List.length_nil] at hO
        omega
      | g :: gs =>
        have hO2 : O ≤ frame.length + (g :: gs).dropLast.flatten.length := by
          have hdl : (frame :: g :: gs).dropLast = frame :: (g :: gs).dropLast := by
            simp [List.dropLast]
          rw [hdl] at hO
          simp only [List.flatten_cons, List.length_append] at hO
          omega
        obtain ⟨f0, r0, O0, heq, hle, hdrop, hlen⟩ := skipLoop_true_clean (g :: gs) frame O hO2
        have hpf : prepareFrame true (frame :: g :: gs) O =
            (if (f0.drop O0).length = 0 then
              match plFrame true r0 with
              | (none, _, r2) => (none, r2, 0)
              | (some f2, _, r2) => (some f2, r2, 0)
            else (some (f0.drop O0), r0, 0)) := by
          simp only [prepareFrame, plFrame]
          rw [if_pos ⟨hOpos, trivial⟩]
          simp only [heq]
          rw [if_pos trivial]
        by_cases hnil : (f0.drop O0).length = 0
        · rw [if_pos hnil] at hpf
          rcases r0 with _ | ⟨f2, r2⟩
          · refine Or.inl ⟨[], 0, by simpa [plFrame] using hpf, ?_⟩
            rw [List.flatten_cons, hdrop, List.eq_nil_of_length_eq_zero hnil]
            simp
          · refine Or.inr ⟨f2, r2, ?_, ?_, ?_⟩
            · obtain ⟨e, he⟩ := plFrame_cons_shape true f2 r2
              rw [hpf, he]
            · rw [List.flatten_cons, hdrop, List.eq_nil_of_length_eq_zero hnil]
              simp
            · simp only [List.length_cons] at hlen ⊢
              omega
        · rw [if_neg hnil] at hpf
          refine Or.inr ⟨f0.drop O0, r0, hpf, ?_, ?_⟩
          · rw [List.flatten_cons, hdrop]
          · simp only [List.length_cons] at hlen ⊢
            omega
    · have hO0 : O = 0 := by omega
      subst hO0
      exact Or.inr ⟨frame, rest, prepareFrame_zero true frame rest, by simp, by simp⟩

theorem prepareFrame_true_overrun (r : List (List Nat)) (f : List Nat) (O : Nat)
    (hO : r.flatten.length < O) :
    ∃ O1, prepareFrame true (r ++ [f]) O = (some f, [], O1) := by
  match r with
  | [] =>
    refine ⟨O, ?_⟩
    simp only [List.nil_append, prepareFrame, plFrame]
    rw [if_neg (fun hc => by simp at hc)]
  | g :: gs =>
    have hne : gs ++ [f] ≠ [] := by simp
    have hO2 : g.length + (gs ++ [f]).dropLast.flatten.length < O := by
      rw [List.dropLast_concat]
      simp only [List.flatten_cons, List.length_append] at hO
      omega
    obtain ⟨O1, heq⟩ := skipLoop_true_overrun (gs ++ [f]) g O hne hO2
    refine ⟨O1, ?_⟩
    have hOpos : 0 < O := by omega
    have hcons : (g :: gs) ++ [f] = g :: (gs ++ [f]) := by simp
    rw [hcons]
    have hpl := plFrame_cons_of_ne true g (gs ++ [f]) hne
    simp only [prepareFrame, hpl]
    rw [if_pos ⟨hOpos, trivial⟩]
    simp only [heq]
    rw [if_neg (fun hc => by simp at hc)]
    rw [List.getLast_concat]

theorem specInterleaveGo_nil (I : Nat) (pkt : List Nat) (fuel : Nat) :
    specInterleaveGo I pkt fuel [] = [] := by
  match fuel with
  | 0 => rfl
  | fuel + 1 =>
    simp only [specInterleaveGo]
    split
    next hc => simp only [List.length_nil] at hc; omega
    next => rfl

theorem specInterleaveGo_fuel (I : Nat) (pkt : List Nat) :
    ∀ (n : Nat) (bs : List Nat) (f1 f2 : Nat), bs.length ≤ n →
      bs.length ≤ f1 → bs.length ≤ f2 →
      specInterleaveGo I pkt f1 bs = specInterleaveGo I pkt f2 bs := by
  intro n
  induction n with
  | zero =>
    intro bs f1 f2 hn h1 h2
    have : bs = [] := List.eq_nil_of_length_eq_zero (by omega)
    subst this
    rw [specInterleaveGo_nil, specInterleaveGo_nil]
  | succ n ih =>
    intro bs f1 f2 hn h1 h2
    match bs, f1, f2 with
    | [], f1, f2 => rw [specInterleaveGo_nil, specInterleaveGo_nil]
    | b :: bs, f1 + 1, f2 + 1 =>
      simp only [List.length_cons] at hn h1 h2
      simp only [specInterleaveGo]
      split
      next hc =>
        simp only [List.length_cons] at hc
        have := ih ((b :: bs).drop I) f1 f2
          (by simp only [List.length_drop, List.length_cons]; omega)
          (by simp only [List.length_drop, List.length_cons]; omega)
          (by simp only [List.length_drop, List.length_cons]; omega)
        rw [this]
      next => rfl
    | b :: bs, 0, _ => simp at h1
    | b :: bs, _ + 1, 0 => simp at h2

theorem specInterleave_unfold (I : Nat) (pkt bs : List Nat) :
    specInterleave I pkt bs =
      if 0 < I ∧ I ≤ bs.length then
        bs.take I ++ pkt ++ specInterleave I pkt (bs.drop I)
      else bs := by
  by_cases hc : 0 < I ∧ I ≤ bs.length
  · rw [if_pos hc]
    unfold specInterleave
    obtain ⟨m, hm⟩ : ∃ m, bs.length = m + 1 := ⟨bs.length - 1, by omega⟩
    rw [hm]
    simp only [specInterleaveGo]
    rw [if_pos hc]
    have hfuel := specInterleaveGo_fuel I pkt m (bs.drop I) m (bs.drop I).length
      (by simp; omega) (by simp; omega) (le_refl _)
    rw [hfuel]
  · rw [if_neg hc]
    unfold specInterleave
    match bs with
    | [] => rw [specInterleaveGo_nil]
    | b :: bs2 =>
      simp only [List.length_cons, specInterleaveGo]
      rw [if_neg (by simpa using hc)]

theorem specInterleaveW_zero (I : Nat) (pkt bs : List Nat) :
    specInterleaveW I pkt 0 bs = specInterleave I pkt bs := by
  rw [specInterleaveW, specInterleave_unfold I pkt bs]
  simp

theorem specInterleaveW_empty (I : Nat) (pkt : List Nat) (W : Nat) (h : W < I) :
    specInterleaveW I pkt W [] = [] := by
  rw [specInterleaveW, if_neg (by simp; omega)]

theorem specInterleaveW_extend (I : Nat) (pkt p bs : List Nat) (W : Nat)
    (h : W + p.length < I) :
    p ++ specInterleaveW I pkt (W + p.length) bs = specInterleaveW I pkt W (p ++ bs) := by
  rw [specInterleaveW, specInterleaveW]
  have hlen : (p ++ bs).length = p.length + bs.length := by simp
  by_cases hc : 0 < I ∧ I ≤ W + p.length + bs.length
  · rw [if_pos (by omega), if_pos (by omega)]
    rw [List.take_append_eq_append_take, List.drop_append_eq_append_drop]
    have htp : p.take (I - W) = p := List.take_of_length_le (by omega)
    have hdp : p.drop (I - W) = [] := List.drop_eq_nil_of_le (by omega)
    have harith : I - W - p.length = I - (W + p.length) := by omega
    rw [htp, hdp, harith]
    simp
  · rw [if_neg (by omega), if_neg (by omega)]

theorem writeFrame_noMeta (frame : List Nat) (W : Nat) (pkt : List Nat) (I : Nat) :
    writeFrame frame W false pkt I = ([Chunk.data frame], W + frame.length) := by
  simp [writeFrame]

theorem writeFrame_plain (frame : List Nat) (W : Nat) (pkt : List Nat) (I : Nat)
    (h : W + frame.length < I) :
    writeFrame frame W true pkt I = ([Chunk.data frame], W + frame.length) := by
  rw [writeFrame, if_neg (by omega)]

theorem writeFrame_meta (frame : List Nat) (W : Nat) (pkt : List Nat) (I : Nat)
    (hW : W < I) (h : I ≤ W + frame.length) :
    writeFrame frame W true pkt I =
      ([Chunk.data (frame.take (I - W)), Chunk.meta pkt, Chunk.data (frame.drop (I - W))],
        W + frame.length - I) := by
  rw [writeFrame, if_pos ⟨rfl, h⟩]
  have hpre : 0 < I - W := by omega
  simp only [if_pos hpre]
  refine Prod.ext ?_ ?_
  · simp
  · simp only [List.length_drop]
    omega

theorem pumpGo_nil (pe m : Bool) (pkt : List Nat) (I fuel O W : Nat) :
    pumpGo pe m pkt I fuel [] O W = [] := by
  match fuel with
  | 0 => rfl
  | fuel + 1 => simp only [pumpGo, prepareFrame_nil]

theorem pumpGo_noMeta_false (pkt : List Nat) (I : Nat) :
    ∀ (fuel : Nat) (fs : List (List Nat)) (O W : Nat), fs.length ≤ fuel →
      bodyBytes (pumpGo false false pkt I fuel fs O W) = fs.flatten.drop O := by
  intro fuel
  induction fuel with
  | zero =>
    intro fs O W h
    have : fs = [] := List.eq_nil_of_length_eq_zero (by omega)
    subst this
    simp [pumpGo, bodyBytes]
  | succ n ih =>
    intro fs O W h
    rcases hp : prepareFrame false fs O with ⟨o, r, O1⟩
    match o, hp with
    | none, hp =>
      simp only [pumpGo, hp, bodyBytes_nil]
      exact (prepareFrame_false_none fs O r O1 hp).symm
    | some frame, hp =>
      obtain ⟨hO1, hdrop, hlen⟩ := prepareFrame_false_some fs O frame r O1 hp
      simp only [pumpGo, hp, writeFrame_noMeta, bodyBytes_append]
      rw [ih r O1 (W + frame.length) (by omega), hO1, hdrop]
      simp [bodyBytes, chunkBytes]

theorem pumpGo_zero (pe : Bool) (pkt : List Nat) (I : Nat) :
    ∀ (fuel : Nat) (fs : List (List Nat)) (W : Nat), fs.length ≤ fuel →
      bodyBytes (pumpGo pe false pkt I fuel fs 0 W) = fs.flatten := by
  intro fuel
  induction fuel with
  | zero =>
    intro fs W h
    have : fs = [] := List.eq_nil_of_length_eq_zero (by omega)
    subst this
    simp [pumpGo, bodyBytes]
  | succ n ih =>
    intro fs W h
    match fs with
    | [] => simp [pumpGo_nil, bodyBytes]
    | f :: r =>
      simp only [pumpGo, prepareFrame_zero, writeFrame_noMeta, bodyBytes_append]
      rw [ih r (W + f.length) (by simp only [List.length_cons] at h; omega)]
      simp [bodyBytes, chunkBytes]

theorem pumpGo_meta (pkt : List Nat) (I : Nat) (hI : 0 < I) (pe : Bool) :
    ∀ (fuel : Nat) (fs : List (List Nat)) (W : Nat), fs.length ≤ fuel → W < I →
      (∀ f ∈ fs, f.length ≤ I) →
      bodyBytes (pumpGo pe true pkt I fuel fs 0 W) = specInterleaveW I pkt W fs.flatten := by
  intro fuel
  induction fuel with
  | zero =>
    intro fs W hfuel hW hfs
    have : fs = [] := List.eq_nil_of_length_eq_zero (by omega)
    subst this
    simp only [pumpGo, bodyBytes_nil, List.flatten_nil]
    exact (specInterleaveW_empty I pkt W hW).symm
  | succ n ih =>
    intro fs W hfuel hW hfs
    match fs with
    | [] =>
      simp only [pumpGo, prepareFrame_nil, bodyBytes_nil, List.flatten_nil]
      exact (specInterleaveW_empty I pkt W hW).symm
    | f :: r =>
      have hfr : ∀ g ∈ r, g.length ≤ I := fun g hg => hfs g (List.mem_cons_of_mem f hg)
      have hfl : f.length ≤ I := hfs f (List.mem_cons_self f r)
      simp only [pumpGo, prepareFrame_zero]
      by_cases hc : I ≤ W + f.length
      · rw [writeFrame_meta f W pkt I hW hc]
        simp only [bodyBytes_append, bodyBytes_cons, chunkBytes, bodyBytes_nil,
          List.append_nil]
        have hW1 : W + f.length - I < I := by omega
        rw [ih r (W + f.length - I) (by simp only [List.length_cons] at hfuel; omega) hW1 hfr]
        rw [List.flatten_cons]
        have hkey : f.drop (I - W) ++ specInterleaveW I pkt (W + f.length - I) r.flatten =
            specInterleave I pkt (f.drop (I - W) ++ r.flatten) := by
          have hp : (f.drop (I - W)).length = W + f.length - I := by
            simp only [List.length_drop]; omega
          have hext := specInterleaveW_extend I pkt (f.drop (I - W)) r.flatten 0
            (by rw [hp]; omega)
          rw [Nat.zero_add, hp] at hext
          rw [hext, specInterleaveW_zero]
        simp only [List.append_assoc]
        rw [hkey, specInterleaveW, if_pos ⟨hI, by simp only [List.length_append]; omega⟩]
        rw [List.take_append_eq_append_take, List.drop_append_eq_append_drop]
        have htake : (I - W) - f.length = 0 := by omega
        rw [htake]
        simp [List.append_assoc]
      · rw [writeFrame_plain f W pkt I (by omega)]
        simp only [bodyBytes_append, bodyBytes_cons, chunkBytes, bodyBytes_nil,
          List.append_nil]
        rw [ih r (W + f.length) (by simp at hfuel; omega) (by omega) hfr]
        rw [List.flatten_cons]
        have := specInterleaveW_extend I pkt f r.flatten W (by omega)
        rw [← this]

/-- C1: For every accepted connection that reaches the frame pump with
metadata requested, the body written to the client equals the concatenation
of the playlist items' bytes with one metadata packet inserted exactly
every `MetaDataInterval` stream-bytes (the `specInterleave` reference
stream, for either playlist-end shape `pe`), and whenever a frame would
cross the interval boundary (`W + len(frame) ≥ I`) the engine writes the
first `I - W` bytes of the frame, then one metadata packet, then the
remainder, with new counter `W + len(frame) - I`.  The hypotheses hold for
the real configuration: `I = MetaDataInterval = 65536 > 0` and every
playlist frame has length at most `FrameSize = 3000 ≤ I`. -/
theorem framePump_metadata_interleave (fs : List (List Nat)) (pkt : List Nat) (I : Nat)
    (hI : 0 < I) (hfs : ∀ f ∈ fs, f.length ≤ I) :
    (∀ pe : Bool,
      bodyBytes (framePump pe true pkt I fs 0 0) = specInterleave I pkt fs.flatten) ∧
    (∀ (frame : List Nat) (W : Nat), W < I → I ≤ W + frame.length →
      writeFrame frame W true pkt I =
        ([Chunk.data (frame.take (I - W)), Chunk.meta pkt, Chunk.data (frame.drop (I - W))],
          W + frame.length - I)) := by
  constructor
  · intro pe
    rw [framePump, pumpGo_meta pkt I hI pe fs.length fs 0 (le_refl _) hI hfs,
      specInterleaveW_zero]
  · intro frame W hW h
    exact writeFrame_meta frame W pkt I hW h

theorem framePump_metadata_interleave_witness :
    bodyBytes (framePump true true [3, 9, 9] 5 [[1, 2, 3], [4, 5, 6, 7], [0, 1, 2, 3], [4, 5, 6], [7, 8, 9]] 0 0) =
      specInterleave 5 [3, 9, 9]
        ([[1, 2, 3], [4, 5, 6, 7], [0, 1, 2, 3], [4, 5, 6], [7, 8, 9]] : List (List Nat)).flatten :=
  (framePump_metadata_interleave [[1, 2, 3], [4, 5, 6, 7], [0, 1, 2, 3], [4, 5, 6], [7, 8, 9]]
    [3, 9, 9] 5 (by decide) (by decide)).1 true

/-- C2 counterexample: the claim says the pump emits exactly the
concatenation of the playlist bytes with the first `O` bytes removed, for
every playlist and offset.  But Go guards the whole offset block with
`err == nil`, and `FilePlaylist.Frame` returns the final partial frame of
the playlist together with `ErrPlaylistEnd` (`pe = true`): for a playlist
whose single item has 10 bytes and offset `O = 7`, the frame arrives with
the end error, the offset block is skipped, and all 10 bytes are emitted
from byte 0 — not `flatten.drop 7 = [7, 8, 9]`. -/
theorem framePump_offset_counterexample :
    bodyBytes (framePump true false [] 65536 [[0, 1, 2, 3, 4, 5, 6, 7, 8, 9]] 7 0) =
        [0, 1, 2, 3, 4, 5, 6, 7, 8, 9] ∧
      ([[0, 1, 2, 3, 4, 5, 6, 7, 8, 9]] : List (List Nat)).flatten.drop 7 = [7, 8, 9] := by
  decide

/-- C2: amended — the offset-skip behaviour depends on whether the frame
under the offset arrives with the playlist-end error (`pe` as in
`plFrame`).  (1) When every frame arrives error-free (`pe = false`, e.g. a
total length that is a multiple of `FrameSize`), the body is exactly the
item-byte concatenation with the first `O` bytes dropped, for every
offset.  (2) With the end error on the final frame (`pe = true`), the same
equality holds whenever the offset lies within the frames before the last
(`O ≤ len(flatten(dropLast fs))`): the discard loop then never touches the
final frame.  (3) But when the offset overruns the error-free frames
(`len(flatten r) < O` with `fs = r ++ [f]`), Go's `err == nil` guards skip
the offset block and the body is the whole final frame `f`, unsliced —
bytes before position `O` are emitted. -/
theorem framePump_offset_skip (fs : List (List Nat)) (O : Nat) (pkt : List Nat) (I : Nat) :
    bodyBytes (framePump false false pkt I fs O 0) = fs.flatten.drop O ∧
    (O ≤ fs.dropLast.flatten.length →
      bodyBytes (framePump true false pkt I fs O 0) = fs.flatten.drop O) ∧
    (∀ (r : List (List Nat)) (f : List Nat), fs = r ++ [f] → r.flatten.length < O →
      bodyBytes (framePump true false pkt I fs O 0) = f) := by
  refine ⟨?_, ?_, ?_⟩
  · rw [framePump]
    exact pumpGo_noMeta_false pkt I fs.length fs O 0 (le_refl _)
  · intro hO
    rcases fs with _ | ⟨g, gs⟩
    · simp [framePump, pumpGo, bodyBytes]
    · rcases prepareFrame_true_bounded (g :: gs) O hO with
        ⟨r1, O1, hpf, hflat⟩ | ⟨f, r, hpf, hflat, hlen⟩
      · rw [framePump]
        simp only [List.length_cons, pumpGo, hpf, bodyBytes_nil]
        exact hflat.symm
      · rw [framePump]
        simp only [List.length_cons, pumpGo, hpf, writeFrame_noMeta, bodyBytes_append]
        rw [pumpGo_zero true pkt I gs.length r (0 + f.length)
          (by simp only [List.length_cons] at hlen; omega)]
        rw [hflat]
        simp [bodyBytes, chunkBytes]
  · intro r f hfs hO
    subst hfs
    obtain ⟨O1, hpf⟩ := prepareFrame_true_overrun r f O hO
    rw [framePump]
    have hlen : (r ++ [f]).length = r.length + 1 := by simp
    rw [hlen]
    simp only [pumpGo, hpf, writeFrame_noMeta, bodyBytes_append, pumpGo_nil]
    simp [bodyBytes, chunkBytes]

theorem framePump_offset_skip_witness :
    bodyBytes (framePump true false [] 65536 [[1, 2, 3], [4, 5]] 2 0) =
        ([[1, 2, 3], [4, 5]] : List (List Nat)).flatten.drop 2 ∧
      bodyBytes (framePump true false [] 65536 [[1, 2, 3], [4, 5]] 4 0) = [4, 5] :=
  ⟨(framePump_offset_skip [[1, 2, 3], [4, 5]] 2 [] 65536).2.1 (by decide),
   (framePump_offset_skip [[1, 2, 3], [4, 5]] 4 [] 65536).2.2 [[1, 2, 3]] [4, 5] rfl
      (by decide)⟩


theorem getD_replicate_zero (n j : Nat) : (List.replicate n (0 : Nat)).getD j 0 = 0 := by
  induction n generalizing j with
  | zero => simp [List.getD]
  | succ n ih =>
    cases j with
    | zero => simp [List.replicate]
    | succ j => simp [List.replicate, ih j]

/-- C3: Every metadata packet written by `writeStreamMetaData` has length
`1 + 16 * k` for `k = ⌈len(title)/16⌉` with `k ∈ [0, 255]`, where the title
is `StreamTitle='<title> - <artist>';` truncated, when longer than
`MaxMetaDataSize`, to `MaxMetaDataSize - 2` bytes with `';` re-appended
(so the truncated title has length exactly `MaxMetaDataSize`); byte 0 of
the packet is `k`, bytes `1..len(title)` are the title, and the remaining
bytes are zero padding.  The hypotheses reflect the documented constraint
on `MaxMetaDataSize` (`must be a multiple of 16 which fits into one byte,
maximum 16 * 255 = 4080`; the default is 4080). -/
theorem writeStreamMetaData_format (title artist : List Nat) (M : Nat)
    (hM2 : 2 ≤ M) (hM : M ≤ 4080) :
    (writeStreamMetaData title artist M).length =
      1 + 16 * (((truncatedTitle (streamTitleBytes title artist) M).length + 15) / 16) ∧
    ((truncatedTitle (streamTitleBytes title artist) M).length + 15) / 16 ≤ 255 ∧
    (writeStreamMetaData title artist M).head? =
      some (((truncatedTitle (streamTitleBytes title artist) M).length + 15) / 16) ∧
    (∀ i, i < (truncatedTitle (streamTitleBytes title artist) M).length →
      (writeStreamMetaData title artist M).getD (i + 1) 0 =
        (truncatedTitle (streamTitleBytes title artist) M).getD i 0) ∧
    (∀ i, (truncatedTitle (streamTitleBytes title artist) M).length ≤ i →
      i < 16 * (((truncatedTitle (streamTitleBytes title artist) M).length + 15) / 16) →
      (writeStreamMetaData title artist M).getD (i + 1) 0 = 0) ∧
    (M < (streamTitleBytes title artist).length →
      (truncatedTitle (streamTitleBytes title artist) M).length = M) := by
  set st := truncatedTitle (streamTitleBytes title artist) M with hst
  have hstlen : st.length ≤ 4080 := by
    rw [hst, truncatedTitle]
    split
    next hlt =>
      simp only [List.length_append, List.length_take, List.length_cons, List.length_nil]
      omega
    next hlt => omega
  have hk255 : (st.length + 15) / 16 ≤ 255 := by omega
  have hkmod : (st.length + 15) / 16 % 256 = (st.length + 15) / 16 :=
    Nat.mod_eq_of_lt (by omega)
  have hstk : st.length ≤ 16 * ((st.length + 15) / 16) := by
    have hdm := Nat.div_add_mod (st.length + 15) 16
    have hmlt : (st.length + 15) % 16 < 16 := Nat.mod_lt _ (by norm_num)
    omega
  have hpkt : writeStreamMetaData title artist M =
      ((st.length + 15) / 16) ::
        (st ++ List.replicate (16 * ((st.length + 15) / 16) - st.length) 0) := by
    rw [writeStreamMetaData, ← hst, hkmod, List.take_of_length_le hstk]
  refine ⟨?_, hk255, ?_, ?_, ?_, ?_⟩
  · rw [hpkt]
    simp only [List.length_cons, List.length_append, List.length_replicate]
    omega
  · rw [hpkt]
    rfl
  · intro i hi
    rw [hpkt]
    simp only [List.getD_cons_succ]
    rw [List.getD_append _ _ _ _ hi]
  · intro i hi1 hi2
    rw [hpkt]
    simp only [List.getD_cons_succ]
    rw [List.getD_append_right st _ _ _ hi1]
    exact getD_replicate_zero _ _
  · intro hlt
    rw [hst, truncatedTitle, if_pos hlt]
    simp only [List.length_append, List.length_take, List.length_cons, List.length_nil]
    omega

theorem writeStreamMetaData_format_witness :
    (writeStreamMetaData (ascii "A very long title name which should be truncated")
      (ascii "Test Artist") 40).length = 49 :=
  ((writeStreamMetaData_format (ascii "A very long title name which should be truncated")
    (ascii "Test Artist") 40 (by norm_num) (by norm_num)).1).trans (by decide)

/-- C8: Once `Finished()` returns true, a `Frame()` call returns
`(nil, ErrPlaylistEnd)` and leaves every component of the playlist state
(cursor, open stream, finished flag, items) unchanged — so every
subsequent call does the same until `Close()` is called — and `Close()`
resets the cursor to 0 and the finished flag to false (closing any open
stream and keeping the items, so the playlist can be played again). -/
theorem frame_finished_idempotent (env : List Char → Option (List Nat))
    (fp : FilePlaylist) (h : fp.finished = true) :
    FilePlaylist.Frame env fp = ((none, some PErr.plEnd), fp) ∧
    (FilePlaylist.Close fp).current = 0 ∧
    (FilePlaylist.Close fp).finished = false ∧
    (FilePlaylist.Close fp).file = none ∧
    (FilePlaylist.Close fp).data = fp.data := by
  refine ⟨?_, rfl, rfl, rfl, rfl⟩
  rw [FilePlaylist.Frame]
  simp [h]

theorem frame_finished_idempotent_witness :
    FilePlaylist.Frame (fun _ => none) ⟨3, [⟨[], [], []⟩], none, true⟩ =
      ((none, some PErr.plEnd), ⟨3, [⟨[], [], []⟩], none, true⟩) :=
  (frame_finished_idempotent (fun _ => none) ⟨3, [⟨[], [], []⟩], none, true⟩ rfl).1

/-- C9: For every `FilePlaylist` with a nonempty item list and any cursor
value, `Artist()`, `Title()` and `ContentType()` report the item at index
`current` while `current < len(data)` and the last item (index
`len(data) - 1`) once `current ≥ len(data)`; the index actually used is
always in bounds (`get?`/`getLast?` return `some`). -/
theorem currentItem_in_bounds (fp : FilePlaylist) (h : fp.data ≠ []) :
    (fp.current < fp.data.length → fp.data.get? fp.current = some (currentItem fp)) ∧
    (fp.data.length ≤ fp.current → fp.data.getLast? = some (currentItem fp)) ∧
    FilePlaylist.Artist fp = (currentItem fp).artist ∧
    FilePlaylist.Title fp = (currentItem fp).title ∧
    FilePlaylist.ContentType fp = contentTypeForPath (currentItem fp).path := by
  refine ⟨?_, ?_, rfl, rfl, rfl⟩
  · intro hlt
    rw [currentItem, if_pos hlt, List.getD_eq_get fp.data default hlt]
    exact List.get?_eq_get hlt
  · intro hge
    rw [List.getLast?_eq_getLast fp.data h, currentItem, if_neg (by omega)]
    have hlt : fp.data.length - 1 < fp.data.length := by
      have hpos := List.length_pos.mpr h
      omega
    rw [List.getD_eq_get fp.data default hlt, List.getLast_eq_getElem]
    simp [List.get_eq_getElem]

theorem currentItem_in_bounds_witness :
    ([⟨"a1".toList, "t1".toList, "p1.mp3".toList⟩,
      ⟨"a2".toList, "t2".toList, "p2.ogg".toList⟩] : List PLItem).getLast? =
      some (currentItem ⟨5, [⟨"a1".toList, "t1".toList, "p1.mp3".toList⟩,
        ⟨"a2".toList, "t2".toList, "p2.ogg".toList⟩], none, false⟩) :=
  (currentItem_in_bounds ⟨5, [⟨"a1".toList, "t1".toList, "p1.mp3".toList⟩,
    ⟨"a2".toList, "t2".toList, "p2.ogg".toList⟩], none, false⟩
    (by simp)).2.1 (by simp)

theorem find?_filter_key_ne (l : List (List Char × List Char × Nat)) (k : List Char)
    (now maxAge : Nat) :
    (l.filter (fun e => !(e.1 == k))).find?
      (fun e => e.1 == k && decide (now - e.2.2 ≤ maxAge)) = none := by
  induction l with
  | nil => rfl
  | cons e t ih =>
    by_cases he : e.1 = k
    · simp only [List.filter, he]
      simpa using ih
    · simp only [List.filter]
      rw [show ((!(e.1 == k)) = true) from by simpa using he]
      rw [List.find?_cons_of_neg _ (by simpa using fun hk => absurd hk he)]
      exact ih

theorem MapCache.get_put (mc : MapCache) (k v : List Char) (t now : Nat) :
    (mc.put k v t).get k now =
      if now - t ≤ mc.maxAge then some v else none := by
  rw [MapCache.put, MapCache.get]
  by_cases h : now - t ≤ mc.maxAge
  · rw [if_pos h]
    rw [List.find?_cons_of_pos _ (by simpa using h)]
    rfl
  · rw [if_neg h]
    rw [List.find?_cons_of_neg _ (by simpa using h)]
    rw [find?_filter_key_ne]
    rfl

/-- C5: When a credential is configured, a request carrying a well-formed
`Authorization: Basic` header (token present, base64 decode succeeds) is
accepted iff the decoded credential equals the configured one exactly; any
mismatch makes `checkAuth` return false and the server answer with the
exact 401 response
`HTTP/1.1 401 Authorization Required\r\nWWW-Authenticate: Basic
realm="DudelDu Streaming Server"\r\n\r\n` (after which `HandleRequest`
returns and the connection is closed). -/
theorem checkAuth_credential_match (cfg : List Nat) (cache : MapCache)
    (bufStr clientString : List Char) (now : Nat) (tok : List Char) (b : List Nat)
    (hcfg : cfg ≠ []) (htok : findAuthToken bufStr = some tok)
    (hdec : base64Decode tok = some b) :
    ((checkAuth cfg cache bufStr clientString now).1.ok = true ↔ b = cfg) ∧
    (b ≠ cfg →
      authResponse cfg cache bufStr clientString now = some writeUnauthorized) := by
  have hca : checkAuth cfg cache bufStr clientString now =
      if b ≠ cfg ∧ cfg ≠ [] then (⟨b, bufStr, false⟩, cache)
      else (⟨b, bufStr, true⟩, cache.put clientString bufStr now) := by
    simp only [checkAuth, htok, hdec]
  by_cases hb : b = cfg
  · have hok : (checkAuth cfg cache bufStr clientString now).1.ok = true := by
      rw [hca, if_neg (by simp [hb])]
    exact ⟨by rw [hok]; simp [hb], fun hne => absurd hb hne⟩
  · have hok : (checkAuth cfg cache bufStr clientString now).1.ok = false := by
      rw [hca, if_pos (show b ≠ cfg ∧ cfg ≠ [] from ⟨hb, hcfg⟩)]
    refine ⟨by rw [hok]; simp [hb], fun _ => ?_⟩
    simp [authResponse, hok]

theorem checkAuth_credential_match_witness :
    ((checkAuth (ascii "web:web") ⟨[], 10⟩
        "GET /x HTTP/1.1\r\nAuthorization: Basic d2ViOndlYg==".toList [] 0).1.ok = true ↔
      ascii "web:web" = ascii "web:web") ∧
    (ascii "web:web" ≠ ascii "web:web" →
      authResponse (ascii "web:web") ⟨[], 10⟩
        "GET /x HTTP/1.1\r\nAuthorization: Basic d2ViOndlYg==".toList [] 0 =
        some writeUnauthorized) :=
  checkAuth_credential_match (ascii "web:web") ⟨[], 10⟩
    "GET /x HTTP/1.1\r\nAuthorization: Basic d2ViOndlYg==".toList [] 0
    "d2ViOndlYg==".toList (ascii "web:web") (by decide) (by decide) (by decide)

/-- C6 counterexample: with no credential configured (empty auth string), a
request whose `Authorization: Basic` token is present but not valid base64
is rejected by `checkAuth` (the decode-failure branch returns false before
the empty-credential check), contradicting the claim that every decoded
request is accepted. -/
theorem checkAuth_noCred_counterexample :
    (checkAuth [] ⟨[], 10⟩ "Authorization: Basic !!!!".toList [] 0).1.ok = false := by
  decide

/-- C6 (amended): when no credential is configured, `checkAuth` accepts
every request except one carrying an `Authorization: Basic` token that
fails base64 decoding, which is rejected: the accept flag equals
`authDecodeOk` (no token present, or token decodes). -/
theorem checkAuth_noCred_accepts (cache : MapCache) (bufStr clientString : List Char)
    (now : Nat) :
    (checkAuth [] cache bufStr clientString now).1.ok = authDecodeOk bufStr := by
  rcases h : findAuthToken bufStr with _ | tok
  · rw [show authDecodeOk bufStr = true from by simp [authDecodeOk, h]]
    simp only [checkAuth, h]
    rw [if_neg (by simp)]
    split
    · rcases hs : cache.get clientString now with _ | s
      · simp
      · rcases ht2 : findAuthToken s with _ | t2
        · simp [ht2]
        · rcases hb2 : base64Decode t2 with _ | b2 <;> simp [ht2, hb2]
    · rfl
  · simp only [checkAuth, authDecodeOk, h]
    rcases hb : base64Decode tok with _ | b
    · simp [hb]
    · simp [hb]

/-- C10: a request whose header text contains no `Authorization: Basic`
line is admitted by `checkAuth` whenever the peer cache holds a live entry
for the client, even when the (trimmed) request body is nonempty and a
credential is configured; the empty-body condition gates only the replay
of the stored header text — here the header text is returned unchanged,
the recovered credential stays empty, and the cache is untouched. -/
theorem checkAuth_cache_admits (cfg : List Nat) (cache : MapCache)
    (bufStr clientString : List Char) (now : Nat)
    (hcfg : cfg ≠ []) (hno : findAuthToken bufStr = none) (hbody : bufStr ≠ [])
    (hlive : (cache.get clientString now).isSome = true) :
    (checkAuth cfg cache bufStr clientString now).1 = ⟨[], bufStr, true⟩ ∧
    (checkAuth cfg cache bufStr clientString now).2 = cache := by
  have hca : checkAuth cfg cache bufStr clientString now = (⟨[], bufStr, true⟩, cache) := by
    simp only [checkAuth, hno]
    rw [if_neg (fun hc => by simp [hc.2] at hlive), if_neg (by simp [hbody])]
  rw [hca]
  exact ⟨rfl, rfl⟩

theorem checkAuth_cache_admits_witness :
    (checkAuth (ascii "web:web")
        (MapCache.put ⟨[], 10⟩ "peer".toList "Authorization: Basic d2ViOndlYg==".toList 0)
        "GET /x HTTP/1.1".toList "peer".toList 5).1 =
      ⟨[], "GET /x HTTP/1.1".toList, true⟩ :=
  (checkAuth_cache_admits (ascii "web:web")
    (MapCache.put ⟨[], 10⟩ "peer".toList "Authorization: Basic d2ViOndlYg==".toList 0)
    "GET /x HTTP/1.1".toList "peer".toList 5
    (by decide) (by decide) (by decide) (by decide)).1

/-- C4: a successfully authenticated request from a host inserts an entry
into the peer cache; a later request from the same host carrying no
Authorization header and an empty decoded body is admitted — reusing the
stored header text and its credential — if it arrives within
`peerNoAuthTimeout` (10) seconds of the insertion, and is rejected with
the 401 response once the entry has expired (credential configured).
The `MapCache` is modelled from the spec (see `MapCache`), with entries
live for at most `maxAge = 10` seconds after insertion. -/
theorem checkAuth_peer_window (cfg : List Nat) (cache : MapCache)
    (buf1 clientString : List Char) (t0 t1 : Nat) (tok : List Char) (b : List Nat)
    (hcfg : cfg ≠ []) (hage : cache.maxAge = 10)
    (htok : findAuthToken buf1 = some tok) (hdec : base64Decode tok = some b)
    (hb : b = cfg) :
    (checkAuth cfg cache buf1 clientString t0).1.ok = true ∧
    (t1 - t0 ≤ 10 →
      checkAuth cfg (checkAuth cfg cache buf1 clientString t0).2 [] clientString t1 =
        (⟨b, buf1, true⟩, (checkAuth cfg cache buf1 clientString t0).2)) ∧
    (10 < t1 - t0 →
      (checkAuth cfg (checkAuth cfg cache buf1 clientString t0).2 [] clientString t1).1.ok
          = false ∧
        authResponse cfg (checkAuth cfg cache buf1 clientString t0).2 [] clientString t1 =
          some writeUnauthorized) := by
  have hca1 : checkAuth cfg cache buf1 clientString t0 =
      (⟨b, buf1, true⟩, cache.put clientString buf1 t0) := by
    simp only [checkAuth, htok, hdec]
    rw [if_neg (by simp [hb])]
  have hget : ∀ tnow : Nat, (cache.put clientString buf1 t0).get clientString tnow =
      if tnow - t0 ≤ 10 then some buf1 else none := by
    intro tnow
    rw [MapCache.get_put, hage]
  have hemp : findAuthToken ([] : List Char) = none := rfl
  refine ⟨by rw [hca1], ?_, ?_⟩
  · intro hle
    have hg : (cache.put clientString buf1 t0).get clientString t1 = some buf1 := by
      rw [hget, if_pos hle]
    rw [hca1]
    simp only [checkAuth, hemp, hg, htok, hdec]
    rw [if_neg (by simp), if_pos (by simp)]
  · intro hgt
    have hg : (cache.put clientString buf1 t0).get clientString t1 = none := by
      rw [hget, if_neg (by omega)]
    have hok : (checkAuth cfg (cache.put clientString buf1 t0) [] clientString t1).1.ok
        = false := by
      simp only [checkAuth, hemp, hg]
      rw [if_pos (by simp [hcfg])]
    rw [hca1]
    exact ⟨hok, by simp [authResponse, hok]⟩

theorem checkAuth_peer_window_witness :
    checkAuth (ascii "web:web")
        (checkAuth (ascii "web:web") ⟨[], 10⟩
          "Authorization: Basic d2ViOndlYg==".toList "peer".toList 0).2
        [] "peer".toList 5 =
      (⟨ascii "web:web", "Authorization: Basic d2ViOndlYg==".toList, true⟩,
        (checkAuth (ascii "web:web") ⟨[], 10⟩
          "Authorization: Basic d2ViOndlYg==".toList "peer".toList 0).2) :=
  (checkAuth_peer_window (ascii "web:web") ⟨[], 10⟩
    "Authorization: Basic d2ViOndlYg==".toList "peer".toList 0 5
    "d2ViOndlYg==".toList (ascii "web:web")
    (by decide) rfl (by decide) (by decide) rfl).2.1 (by decide)

set_option maxRecDepth 40000 in
/-- C7 counterexample: a connection delivering 1026 bytes before the
four-byte terminator (three 300-byte reads of `a` and a final read of 126
`a` bytes followed by `\r\n\r\n`) is decoded successfully —
`decodeRequestHeader` does not return the RequestTooLong error, because
the `buf.Len() > 1024` check runs before the current chunk is appended and
1024 accumulated bytes do not exceed the bound. -/
theorem decodeRequestHeader_counterexample :
    (decodeRequestHeader [List.replicate 300 97, List.replicate 300 97,
        List.replicate 300 97, List.replicate 126 97 ++ [13, 10, 13, 10]]).isOk = true := by
  decide

set_option maxRecDepth 40000 in
/-- C7 (amended): `decodeRequestHeader` fails with RequestTooLong exactly
when a read delivers further data after more than 1024 bytes have already
accumulated without the terminator having been seen.  With full 512-byte
reads whose buffers never contain the terminator: once a fourth nonempty
read arrives (more than 1536 bytes in total), the decoder returns the
RequestTooLong error, after which `HandleRequest` returns without writing
any response; while any connection delivering at most three reads (at most
1536 bytes, in particular between 1025 and 1536 terminator-free bytes
followed by EOF) never produces the error. -/
theorem decodeRequestHeader_amended :
    (∀ (c1 c2 c3 c4 : List Nat) (rest : List (List Nat)),
      c1.length = 512 → c2.length = 512 → c3.length = 512 → c4 ≠ [] →
      containsCRLFCRLF c1 = false → containsCRLFCRLF c2 = false →
      containsCRLFCRLF c3 = false →
      decodeRequestHeader (c1 :: c2 :: c3 :: c4 :: rest) = Except.error tooLongMsg) ∧
    (∀ reads : List (List Nat), reads.length ≤ 3 → (∀ c ∈ reads, c.length ≤ 512) →
      (decodeRequestHeader reads).isOk = true) := by
  have hmax : MaxRequestSize = 1024 := rfl
  constructor
  · intro c1 c2 c3 c4 rest h1 h2 h3 h4 k1 k2 k3
    have hd1 : (List.replicate 512 (0 : Nat)).drop c1.length = [] :=
      List.drop_eq_nil_of_le (by simp [h1])
    have hd2 : c1.drop c2.length = [] := List.drop_eq_nil_of_le (by omega)
    have hd3 : c2.drop c3.length = [] := List.drop_eq_nil_of_le (by omega)
    rw [decodeRequestHeader, drhGo]
    rw [if_neg (by omega), if_neg (by simp), hd1, List.append_nil,
      if_neg (by rw [k1]; simp)]
    rw [drhGo, if_neg (by omega),
      if_neg (by simp only [List.nil_append, h1, hmax]; omega), hd2, List.append_nil,
      if_neg (by rw [k2]; simp)]
    rw [drhGo, if_neg (by omega),
      if_neg (by simp only [List.nil_append, List.length_append, h1, h2, hmax]; omega),
      hd3, List.append_nil, if_neg (by rw [k3]; simp)]
    rw [drhGo,
      if_neg (by simpa using fun hc => h4 (List.eq_nil_of_length_eq_zero hc)),
      if_pos (by simp only [List.nil_append, List.length_append, h1, h2, h3, hmax]; omega)]
  · intro reads hlen hsize
    match reads with
    | [] => rfl
    | [a] =>
      have ha := hsize a (by simp)
      rw [decodeRequestHeader, drhGo]
      split
      · rfl
      · rw [if_neg (by simp only [List.length_nil, hmax]; omega)]
        split
        · rfl
        · rw [drhGo]
          rfl
    | [a, b] =>
      have ha := hsize a (by simp)
      have hb := hsize b (by simp)
      rw [decodeRequestHeader, drhGo]
      split
      · rfl
      · rw [if_neg (by simp only [List.length_nil, hmax]; omega)]
        split
        · rfl
        · rw [drhGo]
          split
          · rfl
          · rw [if_neg (by simp only [List.nil_append, hmax]; omega)]
            split
            · rfl
            · rw [drhGo]
              rfl
    | [a, b, c] =>
      have ha := hsize a (by simp)
      have hb := hsize b (by simp)
      have hc := hsize c (by simp)
      rw [decodeRequestHeader, drhGo]
      split
      · rfl
      · rw [if_neg (by simp only [List.length_nil, hmax]; omega)]
        split
        · rfl
        · rw [drhGo]
          split
          · rfl
          · rw [if_neg (by simp only [List.nil_append, hmax]; omega)]
            split
            · rfl
            · rw [drhGo]
              split
              · rfl
              · rw [if_neg (by simp only [List.nil_append, List.length_append, hmax]; omega)]
                split
                · rfl
                · rw [drhGo]
                  rfl
    | _ :: _ :: _ :: _ :: _ => simp at hlen

set_option maxRecDepth 40000 in
theorem decodeRequestHeader_amended_witness :
    decodeRequestHeader [List.replicate 512 97, List.replicate 512 97,
        List.replicate 512 97, [97]] = Except.error tooLongMsg :=
  decodeRequestHeader_amended.1 (List.replicate 512 97) (List.replicate 512 97)
    (List.replicate 512 97) [97] [] (by simp) (by simp) (by simp) (by simp)
    (by decide) (by decide) (by decide)
